import Mathlib

/-!
Shallow embedding of godupes (src/main.go), a multi-tier duplicate-file
detector, together with proofs settling the frozen claims about it.

Modelling conventions:
* File contents are `List Nat` (one entry per byte); the filesystem is a
  partial map from paths to contents.  `os.Open` fails exactly when the
  path is absent.
* The third-party digest `metro.Hash64(data, seed)` is a parameter
  `hash : HashFn`; concrete executable hashes (`encodeHash`, an injective
  encoding, and constant hashes) instantiate it in witnesses.
* Go's `map[uint64][]File` is an association list with unique keys; Go map
  iteration order is modelled as insertion order (all aggregate statistics
  proved here are order-independent sums).
* `uint64` values never overflow in the program (hash values are only
  compared for equality; sizes are only summed), so `Nat` stands in.
* Fallible Go functions return `Except GoError`; `errOut` (print + exit)
  is modelled by short-circuiting with the error carried out.
-/

namespace Godupes

/-- Byte sequence: one `Nat` per byte. -/
abbrev Bytes := List Nat

/-- Filesystem model: a path maps to its content when the file exists. -/
abbrev FS := String → Option Bytes

/-- Digest function standing in for the third-party `metro.Hash64(data, seed)`. -/
abbrev HashFn := Bytes → Nat → Nat

/-- Errors surfaced by the program: `os.Open` failure (main.go:32-34) and the
`errors.New("Path already present")` value (main.go:99). -/
inductive GoError where
  | accessError (path : String)
  | duplicatePath
deriving DecidableEq

/-- Rendering of an error by `fmt.Println(e)` inside `errOut` (main.go:207-210). -/
def GoError.message : GoError → String
  | GoError.accessError p => "open " ++ p ++ ": no such file or directory"
  | GoError.duplicatePath => "Path already present"

/-- Go struct `File` (main.go:19-24).  All fields take Go zero values when unset. -/
structure File where
  path : String
  size : Nat
  bytesHash : Nat
  fullHash : Nat
deriving DecidableEq

instance : Inhabited File := ⟨⟨"", 0, 0, 0⟩⟩

/-- The buffer produced by `make([]byte, buffSize)` followed by
`file.ReadAt(firstBytes, 0)` (main.go:27,36): the first `min buffSize |content|`
bytes of the file, with the remainder of the buffer still zero.  When the file
is shorter than the buffer, `ReadAt` additionally reports `io.EOF`, which
`FileFromPath` swallows (main.go:37-41). -/
def readBuffer (content : Bytes) (buffSize : Nat) : Bytes :=
  content.take buffSize ++ List.replicate (buffSize - content.length) 0

/-- `FileFromPath` (main.go:26-43): opens the file, stats it for the size, reads
the first `buffSize` bytes into a zero-initialised buffer and hashes the whole
buffer.  In this filesystem model `Stat` on a successfully opened file always
succeeds (the source discards its error), and the only read error at offset 0
is the swallowed `io.EOF`; so the call fails exactly when `os.Open` fails. -/
def FileFromPath (hash : HashFn) (fs : FS) (path : String) (buffSize : Nat) :
    Except GoError File :=
  match fs path with
  | none => Except.error (GoError.accessError path)
  | some content =>
      Except.ok { path := path, size := content.length,
                  bytesHash := hash (readBuffer content buffSize) 0, fullHash := 0 }

/-- The `paths map[uint64][]File` component of a `PathStore`, as an association
list with unique keys.  Insertion order models Go's (arbitrary) map order. -/
abbrev PathsMap := List (Nat × List File)

/-- Go map indexing `p.paths[k]` (absent keys yield the zero value `nil`). -/
def lookupGroup : PathsMap → Nat → List File
  | [], _ => []
  | (k, v) :: rest, key => if k = key then v else lookupGroup rest key

/-- The update `p.paths[key] = append(p.paths[key], f)` (main.go:106, 276). -/
def appendGroup : PathsMap → Nat → File → PathsMap
  | [], key, f => [(key, [f])]
  | (k, v) :: rest, key, f =>
      if k = key then (k, v ++ [f]) :: rest else (k, v) :: appendGroup rest key f

/-- Go struct `PathStore` (main.go:45-50).  The `sync.Mutex` only serialises
access and has no observable effect in this sequential model. -/
structure PathStore where
  paths : PathsMap
  bytesPerFile : Nat
  pathsAdded : List Nat
deriving DecidableEq

/-- Bytes of a path string, as fed to `metro.Hash64([]byte(path), 0)`
(main.go:64).  UTF-8 encoding of the path. -/
def strBytes (s : String) : Bytes := s.toUTF8.toList.map UInt8.toNat

/-- `PathAdded` (main.go:63-69): membership of the path's hash in `pathsAdded`.
Nothing in the program ever inserts into `pathsAdded`, so on every reachable
store this returns `false`. -/
def PathAdded (hash : HashFn) (p : PathStore) (path : String) : Bool :=
  p.pathsAdded.contains (hash (strBytes path) 0)

/-- `AddFile` (main.go:97-109).  Note that the source never records the path in
`pathsAdded`; this translation keeps that behaviour. -/
def AddFile (hash : HashFn) (fs : FS) (p : PathStore) (s : String) :
    Except GoError PathStore :=
  if PathAdded hash p s then Except.error GoError.duplicatePath
  else
    match FileFromPath hash fs s p.bytesPerFile with
    | Except.error e => Except.error e
    | Except.ok f => Except.ok { p with paths := appendGroup p.paths f.bytesHash f }

/-- The insertion loop shared by `NewPathStore` (main.go:54-59) and `fromSTDIn`
(main.go:164-170): add each path in order, stopping at the first error. -/
def addAll (hash : HashFn) (fs : FS) (store : PathStore) :
    List String → Except GoError PathStore
  | [] => Except.ok store
  | p :: rest =>
      match AddFile hash fs store p with
      | Except.error e => Except.error e
      | Except.ok next => addAll hash fs next rest

/-- `NewPathStore` (main.go:52-61). -/
def NewPathStore (hash : HashFn) (fs : FS) (paths : List String)
    (bytesPerFile : Nat) : Except GoError PathStore :=
  addAll hash fs { paths := [], bytesPerFile := bytesPerFile, pathsAdded := [] } paths

/-- `AllPaths` (main.go:71-81): concatenation of all groups. -/
def AllPaths (p : PathStore) : List File := (p.paths.map Prod.snd).flatten

/-- `FileCount` (main.go:111-119). -/
def FileCount (p : PathStore) : Nat :=
  p.paths.foldl (fun acc kv => acc + kv.2.length) 0

/-- `FileSetCount` (main.go:121-126): the number of keys of the map. -/
def FileSetCount (p : PathStore) : Nat := p.paths.length

/-- `Prune` (main.go:128-138): a new store keeping only groups with more than
one member; `pathsAdded` starts empty again and `bytesPerFile` is copied. -/
def Prune (p : PathStore) : PathStore :=
  { paths := p.paths.filter (fun kv => 1 < kv.2.length),
    bytesPerFile := p.bytesPerFile, pathsAdded := [] }

/-- `TotalSizeDups` (main.go:140-151): for each group, the size of its first
element times one less than the group length, summed.  Groups are never empty
on reachable stores, so `headD default` coincides with Go's `v[0]`. -/
def TotalSizeDups (p : PathStore) : Nat :=
  p.paths.foldl (fun acc kv => acc + (kv.2.length - 1) * (kv.2.headD default).size) 0

/-- `Summarize` (main.go:153-158).  `strconv.FormatInt(-, 10)` on the
non-negative values involved is decimal `toString`. -/
def Summarize (p : PathStore) : String :=
  toString (FileCount p) ++ " files (in " ++ toString (FileSetCount p)
    ++ " sets), occupying " ++ toString (TotalSizeDups p / (1024 * 1024)) ++ " megabytes"

/-- `fromSTDIn` (main.go:161-172).  The composite literal
`PathStore{paths: make(map[uint64][]File)}` leaves `bytesPerFile` at its Go
zero value `0` and `pathsAdded` nil; every stdin-mode screening digest is
therefore computed over a zero-length buffer.  Returns the pruned store. -/
def fromSTDIn (hash : HashFn) (fs : FS) (lines : List String) :
    Except GoError PathStore :=
  match addAll hash fs { paths := [], bytesPerFile := 0, pathsAdded := [] } lines with
  | Except.error e => Except.error e
  | Except.ok st => Except.ok (Prune st)

/-- One step of `hashWorker` (main.go:195-205): read the whole file and store
the full-content digest; a read failure aborts the run via `errOut`. -/
def hashFileFull (hash : HashFn) (fs : FS) (f : File) : Except GoError File :=
  match fs f.path with
  | none => Except.error (GoError.accessError f.path)
  | some content => Except.ok { f with fullHash := hash content 0 }

/-- The confirmation-hashing stage applied to the whole work queue.  The worker
pool's completion order is modelled as queue order (grouping below is
insensitive to it except for within-group order). -/
def hashAllFiles (hash : HashFn) (fs : FS) : List File → Except GoError (List File)
  | [] => Except.ok []
  | f :: rest =>
      match hashFileFull hash fs f with
      | Except.error e => Except.error e
      | Except.ok g =>
          match hashAllFiles hash fs rest with
          | Except.error e => Except.error e
          | Except.ok gs => Except.ok (g :: gs)

/-- The result-draining loop of `main` (main.go:275-277): regroup the hashed
records by `fullHash`. -/
def groupByFullHash (files : List File) : PathsMap :=
  files.foldl (fun m f => appendGroup m f.fullHash f) []

/-- The store `hashed` of `main` (main.go:257,275-277) after draining the
result queue: records grouped by `fullHash`, other fields at zero values. -/
def regroupStore (hs : List File) : PathStore :=
  { paths := groupByFullHash hs, bytesPerFile := 0, pathsAdded := [] }

/-- Command-line flags of `main` (main.go:213-218). -/
structure Flags where
  stdin : Bool
  path : String
  numWorkers : Nat
  numBytes : Nat
  summarize : Bool

/-- The tail of `main` after `bytesMatch` is built (main.go:243-281), as the
list of lines printed: the unconditional summary of `bytesMatch`, the
unconditional summary of the pruned store, the unconditional log line, then the
confirmation stage and — only when `-summarize` is set — the final summary. -/
def finalTrace (hash : HashFn) (fs : FS) (flags : Flags) (bytesMatch : PathStore) :
    List String :=
  let newStore := Prune bytesMatch
  let pre := [Summarize bytesMatch, Summarize newStore, "got the hashed map"]
  match hashAllFiles hash fs (AllPaths newStore) with
  | Except.error e => pre ++ [e.message]
  | Except.ok files =>
      let hashedStore := Prune (regroupStore files)
      pre ++ (if flags.summarize then [Summarize hashedStore] else [])

/-- `main` (main.go:212-282) as the list of printed lines.  The directory walk
is an external collaborator, so its yielded paths arrive as `walkPaths`;
stdin's lines arrive as `stdinLines`. -/
def runMain (hash : HashFn) (fs : FS) (flags : Flags)
    (walkPaths stdinLines : List String) : List String :=
  if flags.stdin && !(flags.path == "") then
    ["Only one of -path or -stdin may be used"]
  else if flags.stdin then
    match fromSTDIn hash fs stdinLines with
    | Except.error e => ["getting paths from stdin", e.message]
    | Except.ok st => "getting paths from stdin" :: finalTrace hash fs flags st
  else
    match NewPathStore hash fs walkPaths flags.numBytes with
    | Except.error e => [e.message]
    | Except.ok st => finalTrace hash fs flags st

/-! ### Specification-side definitions and concrete instruments -/

/-- The record `FileFromPath` produces for content `c` (spec: the identity
record with `path`, `size`, `prefixDigest` set and `contentDigest` unset). -/
def mkRecord (hash : HashFn) (c : Bytes) (p : String) (buffSize : Nat) : File :=
  { path := p, size := c.length, bytesHash := hash (readBuffer c buffSize) 0,
    fullHash := 0 }

/-- The identity records extracted from a path list, skipping absent files
(if a file is absent the pipeline aborts, so under a success hypothesis
nothing is skipped). -/
def extractedRecords (hash : HashFn) (fs : FS) (buffSize : Nat) :
    List String → List File
  | [] => []
  | p :: ps =>
      match fs p with
      | none => extractedRecords hash fs buffSize ps
      | some c => mkRecord hash c p buffSize :: extractedRecords hash fs buffSize ps

/-- Spec form of `TotalDuplicatedBytes()`: for each group,
`(groupLength − 1) * representativeSize`, summed across groups. -/
def specTotalDuplicatedBytes (p : PathStore) : Nat :=
  (p.paths.map (fun kv => (kv.2.length - 1) * (kv.2.headD default).size)).sum

/-- The `(size, first-N-bytes)` pair of a file, as the spec's screening
signature. -/
def sigPair (fs : FS) (buffSize : Nat) (p : String) : Nat × Bytes :=
  (((fs p).getD []).length, ((fs p).getD []).take buffSize)

/-- "No digest collision" over a run: distinct screening buffers among the
inputs receive distinct digests. -/
abbrev NoCollisionOn (hash : HashFn) (fs : FS) (buffSize : Nat)
    (paths : List String) : Prop :=
  ∀ p ∈ paths, ∀ q ∈ paths,
    hash (readBuffer ((fs p).getD []) buffSize) 0
        = hash (readBuffer ((fs q).getD []) buffSize) 0 →
    readBuffer ((fs p).getD []) buffSize = readBuffer ((fs q).getD []) buffSize

/-- Keys of a paths map are pairwise distinct (true of every Go map). -/
abbrev WFPaths (m : PathsMap) : Prop := (m.map Prod.fst).Nodup

/-- An injective executable digest used to instantiate `HashFn` in concrete
runs: `Nat.pair`-based encoding of the byte list. -/
def encodeList : Bytes → Nat
  | [] => 0
  | b :: rest => Nat.pair b (encodeList rest) + 1

/-- `encodeList` as a seed-ignoring `HashFn`. -/
def encodeHash : HashFn := fun l _ => encodeList l

/-- Fixture: one file `a` with a single byte. -/
def fsA : FS := fun p => if p = "a" then some [1] else none

/-- Fixture: `a` and `b` with different contents of different lengths. -/
def fsC2 : FS :=
  fun p => if p = "a" then some [1] else if p = "b" then some [2, 2] else none

/-- Fixture: `a` and `b`, distinct sizes, contents agreeing on the bytes that
exist (`[0]` and `[0,0]`). -/
def fsC3 : FS :=
  fun p => if p = "a" then some [0] else if p = "b" then some [0, 0] else none

/-- Fixture: `a` and `b` byte-identical. -/
def fsAB : FS :=
  fun p => if p = "a" then some [7] else if p = "b" then some [7] else none

/-- Fixture: duplicates `a`, `b` and a unique file `c`. -/
def fsABC : FS :=
  fun p => if p = "a" then some [1] else if p = "b" then some [1]
    else if p = "c" then some [2] else none

/-- Fixture: `a` and `b` with distinct screening buffers. -/
def fsDistinct : FS :=
  fun p => if p = "a" then some [1] else if p = "b" then some [2] else none

/-- The store `NewPathStore encodeHash fsA ["a", "a"] 4` actually produces:
the same path twice in one group (`encodeList [1,0,0,0] = 27`). -/
def storeC1after : PathStore :=
  { paths := [(27, [⟨"a", 1, 27, 0⟩, ⟨"a", 1, 27, 0⟩])], bytesPerFile := 4,
    pathsAdded := [] }

/-- The store after the first insertion of `"a"` (one record, key 27). -/
def storeC1mid : PathStore :=
  { paths := [(27, [⟨"a", 1, 27, 0⟩])], bytesPerFile := 4, pathsAdded := [] }

/-- The pruned store `fromSTDIn encodeHash fsC2 ["a", "b"]` actually produces:
both files keyed by the digest of the empty buffer (`encodeList [] = 0`). -/
def storeC2out : PathStore :=
  { paths := [(0, [⟨"a", 1, 0, 0⟩, ⟨"b", 2, 0, 0⟩])], bytesPerFile := 0,
    pathsAdded := [] }

deriving instance DecidableEq for Except

/-! ### Basic lemmas about the map operations -/

theorem lookupGroup_appendGroup_self (m : PathsMap) (k : Nat) (f : File) :
    lookupGroup (appendGroup m k f) k = lookupGroup m k ++ [f] := by
  induction m with
  | nil => simp [appendGroup, lookupGroup]
  | cons kv rest ih =>
      obtain ⟨k1, v⟩ := kv
      by_cases h : k1 = k
      · subst h
        simp [appendGroup, lookupGroup]
      · simp [appendGroup, lookupGroup, h, ih]

theorem lookupGroup_appendGroup_ne (m : PathsMap) (k key : Nat) (f : File)
    (h : k ≠ key) : lookupGroup (appendGroup m k f) key = lookupGroup m key := by
  induction m with
  | nil => simp [appendGroup, lookupGroup, h]
  | cons kv rest ih =>
      obtain ⟨k1, v⟩ := kv
      by_cases h1 : k1 = k
      · subst h1
        simp [appendGroup, lookupGroup, h]
      · by_cases h2 : k1 = key <;>
          simp [appendGroup, lookupGroup, h1, h2, ih, Ne.symm h]

theorem mem_keys_appendGroup {m : PathsMap} {k : Nat} {f : File} {key : Nat}
    (h : key ∈ (appendGroup m k f).map Prod.fst) :
    key ∈ m.map Prod.fst ∨ key = k := by
  induction m with
  | nil =>
      simp only [appendGroup, List.map_cons, List.map_nil, List.mem_singleton] at h
      exact Or.inr h
  | cons kv rest ih =>
      obtain ⟨k1, v⟩ := kv
      by_cases h1 : k1 = k
      · subst h1
        simp only [appendGroup, eq_self_iff_true, if_true, ite_true, List.map_cons,
          List.mem_cons] at h
        exact Or.inl (List.mem_cons.mpr h)
      · simp only [appendGroup, if_neg h1, List.map_cons, List.mem_cons] at h
        rcases h with hh | hh
        · exact Or.inl (List.mem_cons.mpr (Or.inl hh))
        · rcases ih hh with h2 | h2
          · exact Or.inl (List.mem_cons_of_mem _ h2)
          · exact Or.inr h2

theorem wf_appendGroup {m : PathsMap} (k : Nat) (f : File) (h : WFPaths m) :
    WFPaths (appendGroup m k f) := by
  induction m with
  | nil => simp [WFPaths, appendGroup]
  | cons kv rest ih =>
      obtain ⟨k1, v⟩ := kv
      simp only [WFPaths, List.map_cons, List.nodup_cons] at h
      by_cases h1 : k1 = k
      · subst h1
        simpa [WFPaths, appendGroup] using h
      · simp only [WFPaths, appendGroup, if_neg h1, List.map_cons, List.nodup_cons]
        refine ⟨fun hmem => ?_, ih h.2⟩
        rcases mem_keys_appendGroup hmem with h2 | h2
        · exact h.1 h2
        · exact h1 h2

theorem lookupGroup_eq_nil_of_not_mem {m : PathsMap} {key : Nat}
    (h : key ∉ m.map Prod.fst) : lookupGroup m key = [] := by
  induction m with
  | nil => rfl
  | cons kv rest ih =>
      obtain ⟨k1, v⟩ := kv
      simp only [List.map_cons, List.mem_cons] at h
      push_neg at h
      simp [lookupGroup, Ne.symm h.1, ih h.2]

theorem lookupGroup_eq_of_mem {m : PathsMap} (hW : WFPaths m) {k : Nat}
    {v : List File} (hm : (k, v) ∈ m) : lookupGroup m k = v := by
  induction m with
  | nil => simp at hm
  | cons kv rest ih =>
      obtain ⟨k1, v1⟩ := kv
      simp only [WFPaths, List.map_cons, List.nodup_cons] at hW
      rcases List.mem_cons.mp hm with h | h
      · obtain ⟨h1, h2⟩ := Prod.mk.injEq .. ▸ h
        subst h1; subst h2
        simp [lookupGroup]
      · have hk : k1 ≠ k := by
          intro he
          subst he
          exact hW.1 (List.mem_map.mpr ⟨(k1, v), h, rfl⟩)
        simp [lookupGroup, hk, ih hW.2 h]

theorem mem_AllPaths {s : PathStore} {f : File} :
    f ∈ AllPaths s ↔ ∃ kv, kv ∈ s.paths ∧ f ∈ kv.2 := by
  simp only [AllPaths, List.mem_flatten, List.mem_map]
  constructor
  · rintro ⟨l, ⟨kv, hkv, rfl⟩, hf⟩
    exact ⟨kv, hkv, hf⟩
  · rintro ⟨kv, hkv, hf⟩
    exact ⟨kv.2, ⟨kv, hkv, rfl⟩, hf⟩

theorem mem_Prune_paths {s : PathStore} {kv : Nat × List File} :
    kv ∈ (Prune s).paths ↔ kv ∈ s.paths ∧ 1 < kv.2.length := by
  simp [Prune, List.mem_filter]

theorem wf_Prune {s : PathStore} (h : WFPaths s.paths) : WFPaths (Prune s).paths := by
  have hsub : (Prune s).paths.Sublist s.paths := List.filter_sublist _
  exact (hsub.map Prod.fst).nodup h

theorem lookupGroup_filter_big {m : PathsMap} (hW : WFPaths m) (k : Nat) :
    lookupGroup (m.filter fun kv => 1 < kv.2.length) k =
      if 1 < (lookupGroup m k).length then lookupGroup m k else [] := by
  induction m with
  | nil => simp [lookupGroup]
  | cons kv rest ih =>
      obtain ⟨k1, v⟩ := kv
      simp only [WFPaths, List.map_cons, List.nodup_cons] at hW
      by_cases hk : k1 = k
      · subst hk
        have hrest : lookupGroup (rest.filter fun kv => 1 < kv.2.length) k1 = [] := by
          apply lookupGroup_eq_nil_of_not_mem
          intro hmem
          exact hW.1 (((List.filter_sublist rest).map Prod.fst).subset hmem)
        by_cases hv : 1 < v.length
        · simp [List.filter_cons, hv, lookupGroup]
        · simp [List.filter_cons, hv, lookupGroup, hrest]
      · by_cases hv : 1 < v.length
        · simp [List.filter_cons, hv, lookupGroup, hk, ih hW.2]
        · simp [List.filter_cons, hv, lookupGroup, hk, ih hW.2]

/-! ### Characterizing the stores built by `addAll` -/

theorem AddFile_ok {hash : HashFn} {fs : FS} {p : PathStore} {s : String}
    {q : PathStore} (h : AddFile hash fs p s = Except.ok q) :
    ∃ c, fs s = some c
      ∧ q.paths = appendGroup p.paths (mkRecord hash c s p.bytesPerFile).bytesHash
          (mkRecord hash c s p.bytesPerFile)
      ∧ q.bytesPerFile = p.bytesPerFile ∧ q.pathsAdded = p.pathsAdded := by
  unfold AddFile at h
  by_cases hpa : PathAdded hash p s
  · simp [hpa] at h
  · cases hfs : fs s with
    | none => simp [hpa, FileFromPath, hfs] at h
    | some c =>
        simp only [hpa, Bool.false_eq_true, if_false, FileFromPath, hfs,
          Except.ok.injEq] at h
        refine ⟨c, rfl, ?_, ?_, ?_⟩ <;> (rw [← h]; try simp [mkRecord])

theorem addAll_ok_fields {hash : HashFn} {fs : FS} {st : PathStore}
    {ps : List String} {s : PathStore} (h : addAll hash fs st ps = Except.ok s) :
    s.bytesPerFile = st.bytesPerFile ∧ s.pathsAdded = st.pathsAdded := by
  induction ps generalizing st with
  | nil =>
      simp only [addAll, Except.ok.injEq] at h
      subst h; exact ⟨rfl, rfl⟩
  | cons p ps ih =>
      simp only [addAll] at h
      cases ha : AddFile hash fs st p with
      | error e => rw [ha] at h; cases h
      | ok next =>
          rw [ha] at h
          obtain ⟨c, hc, hpaths, hbpf, hpadd⟩ := AddFile_ok ha
          have hi := ih h
          rw [hbpf, hpadd] at hi
          exact hi

theorem addAll_ok_lookup {hash : HashFn} {fs : FS} {st : PathStore}
    {ps : List String} {s : PathStore} (h : addAll hash fs st ps = Except.ok s)
    (k : Nat) :
    lookupGroup s.paths k = lookupGroup st.paths k
      ++ (extractedRecords hash fs st.bytesPerFile ps).filter
           (fun f => f.bytesHash == k) := by
  induction ps generalizing st with
  | nil =>
      simp only [addAll, Except.ok.injEq] at h
      subst h; simp [extractedRecords]
  | cons p ps ih =>
      simp only [addAll] at h
      cases ha : AddFile hash fs st p with
      | error e => rw [ha] at h; cases h
      | ok next =>
          rw [ha] at h
          obtain ⟨c, hc, hpaths, hbpf, hpadd⟩ := AddFile_ok ha
          have hrec := ih h
          rw [hbpf] at hrec
          rw [hrec, hpaths]
          simp only [extractedRecords, hc, List.filter_cons]
          by_cases hk : (mkRecord hash c p st.bytesPerFile).bytesHash = k
          · rw [hk, lookupGroup_appendGroup_self]
            simp [List.append_assoc]
          · rw [lookupGroup_appendGroup_ne _ _ _ _ hk]
            simp [hk]

theorem addAll_ok_wf {hash : HashFn} {fs : FS} {st : PathStore} {ps : List String}
    {s : PathStore} (h : addAll hash fs st ps = Except.ok s)
    (hW : WFPaths st.paths) : WFPaths s.paths := by
  induction ps generalizing st with
  | nil =>
      simp only [addAll, Except.ok.injEq] at h
      subst h; exact hW
  | cons p ps ih =>
      simp only [addAll] at h
      cases ha : AddFile hash fs st p with
      | error e => rw [ha] at h; cases h
      | ok next =>
          rw [ha] at h
          obtain ⟨c, hc, hpaths, hbpf, hpadd⟩ := AddFile_ok ha
          refine ih h ?_
          rw [hpaths]
          exact wf_appendGroup _ _ hW

theorem NewPathStore_ok_lookup {hash : HashFn} {fs : FS} {paths : List String}
    {N : Nat} {s : PathStore} (h : NewPathStore hash fs paths N = Except.ok s)
    (k : Nat) :
    lookupGroup s.paths k
      = (extractedRecords hash fs N paths).filter (fun f => f.bytesHash == k) := by
  have := addAll_ok_lookup h k
  simpa [lookupGroup] using this

theorem NewPathStore_ok_wf {hash : HashFn} {fs : FS} {paths : List String}
    {N : Nat} {s : PathStore} (h : NewPathStore hash fs paths N = Except.ok s) :
    WFPaths s.paths :=
  addAll_ok_wf h (by simp [WFPaths])

theorem NewPathStore_entry {hash : HashFn} {fs : FS} {paths : List String}
    {N : Nat} {s : PathStore} (h : NewPathStore hash fs paths N = Except.ok s)
    {k : Nat} {v : List File} (hkv : (k, v) ∈ s.paths) :
    v = (extractedRecords hash fs N paths).filter (fun f => f.bytesHash == k) := by
  have hW := NewPathStore_ok_wf h
  have := lookupGroup_eq_of_mem hW hkv
  rw [← this, NewPathStore_ok_lookup h]

theorem mem_extractedRecords {hash : HashFn} {fs : FS} {N : Nat}
    {ps : List String} {f : File} :
    f ∈ extractedRecords hash fs N ps
      ↔ ∃ p, p ∈ ps ∧ ∃ c, fs p = some c ∧ f = mkRecord hash c p N := by
  induction ps with
  | nil => simp [extractedRecords]
  | cons p ps ih =>
      cases hfs : fs p with
      | none =>
          simp only [extractedRecords, hfs, ih, List.mem_cons]
          constructor
          · rintro ⟨q, hq, hrest⟩
            exact ⟨q, Or.inr hq, hrest⟩
          · rintro ⟨q, hq | hq, c, hc, hf⟩
            · subst hq; rw [hfs] at hc; cases hc
            · exact ⟨q, hq, c, hc, hf⟩
      | some c =>
          simp only [extractedRecords, hfs, List.mem_cons, ih]
          constructor
          · rintro (hf | ⟨q, hq, d, hd, hf⟩)
            · exact ⟨p, Or.inl rfl, c, hfs, hf⟩
            · exact ⟨q, Or.inr hq, d, hd, hf⟩
          · rintro ⟨q, hq | hq, d, hd, hf⟩
            · subst hq; rw [hfs] at hd
              cases hd
              exact Or.inl hf
            · exact Or.inr ⟨q, hq, d, hd, hf⟩

theorem extractedRecords_map_path_sublist (hash : HashFn) (fs : FS) (N : Nat)
    (ps : List String) :
    ((extractedRecords hash fs N ps).map File.path).Sublist ps := by
  induction ps with
  | nil => simp [extractedRecords]
  | cons p ps ih =>
      cases hfs : fs p with
      | none =>
          simp only [extractedRecords, hfs]
          exact ih.cons p
      | some c =>
          simp only [extractedRecords, hfs, List.map_cons]
          exact ih.cons₂ p

theorem exists_path_ne {l : List File} {f : File}
    (hnd : (l.map File.path).Nodup) (hlen : 2 ≤ l.length) (hf : f ∈ l) :
    ∃ g, g ∈ l ∧ g.path ≠ f.path := by
  match l, hlen with
  | a :: b :: t, _ =>
      rw [List.map_cons, List.nodup_cons] at hnd
      have hab : a.path ∉ (b :: t).map File.path := hnd.1
      rcases List.mem_cons.mp hf with rfl | hf2
      · refine ⟨b, List.mem_cons_of_mem _ (List.mem_cons_self _ _), fun he => hab ?_⟩
        exact List.mem_map.mpr ⟨b, List.mem_cons_self _ _, he⟩
      · refine ⟨a, List.mem_cons_self _ _, fun he => hab ?_⟩
        exact List.mem_map.mpr ⟨f, hf2, he.symm⟩

theorem encodeList_cons_ne_zero (b : Nat) (t : Bytes) : encodeList (b :: t) ≠ 0 := by
  simp [encodeList]

theorem foldl_add_map_sum (g : Nat × List File → Nat)
    (l : List (Nat × List File)) (n : Nat) :
    l.foldl (fun acc kv => acc + g kv) n = n + (l.map g).sum := by
  induction l generalizing n with
  | nil => simp
  | cons kv rest ih => simp [ih, Nat.add_assoc]

/-! ### The claims -/

/-- C1 (code bug): `AddFile` never records the inserted path in `pathsAdded`
(no statement in main.go writes that map), so inserting the same path twice
does not fail with the "Path already present" error — the second insertion
succeeds and appends a second record for the same path.  Here the store built
from the duplicate path list `["a", "a"]` comes back `ok` with two records,
and `PathAdded` still answers `false` on the store that already holds `"a"`. -/
theorem C1_duplicate_path_insert_succeeds :
    NewPathStore encodeHash fsA ["a", "a"] 4 = Except.ok storeC1after
    ∧ PathAdded encodeHash storeC1mid "a" = false := by
  exact ⟨by decide, rfl⟩

/-- C2 (code bug): `fromSTDIn` builds its store with `bytesPerFile` left at the
Go zero value `0`, so in stdin mode every screening digest is computed over a
zero-length buffer rather than the configured 4096 bytes: two files with
different contents land in one screening group, and an injective digest
separates the empty buffer actually hashed from the 4096-byte buffer the claim
prescribes. -/
theorem C2_stdin_digest_over_zero_bytes :
    fromSTDIn encodeHash fsC2 ["a", "b"] = Except.ok storeC2out
    ∧ encodeHash (readBuffer [1] 0) 0 = 0
    ∧ encodeHash (readBuffer [1] 4096) 0 ≠ 0 := by
  refine ⟨by decide, by decide, ?_⟩
  have h : readBuffer [1] 4096 = 1 :: List.replicate 4095 0 := by
    rw [readBuffer, List.take_of_length_le (by norm_num)]
    norm_num
  rw [h]
  exact encodeList_cons_ne_zero 1 _

/-- C4 counterexample: a 1-byte file under N = 4 has its screening digest
computed over the zero-padded 4-byte buffer `[1,0,0,0]`, which the injective
digest `encodeList` distinguishes from the digest over exactly the one byte
that exists. -/
theorem C4_counterexample :
    (FileFromPath encodeHash fsA "a" 4).map File.bytesHash
      = Except.ok (encodeList [1, 0, 0, 0])
    ∧ encodeList [1, 0, 0, 0] ≠ encodeList [1] := by decide

/-- C4 amended: for a file shorter than `N` the extractor digests the `N`-byte
buffer holding the file's bytes followed by zero padding, and the short read is
not reported as an error. -/
theorem C4_short_file_padded_digest (hash : HashFn) (fs : FS) (p : String)
    (N : Nat) (c : Bytes) (hc : fs p = some c) (hlen : c.length < N) :
    FileFromPath hash fs p N
      = Except.ok
          { path := p, size := c.length,
            bytesHash := hash (c ++ List.replicate (N - c.length) 0) 0,
            fullHash := 0 } := by
  have ht : c.take N = c := List.take_of_length_le (Nat.le_of_lt hlen)
  simp [FileFromPath, readBuffer, hc, ht]

/-- C4 witness: the amended statement evaluated on the 1-byte file. -/
theorem C4_witness :
    fsA "a" = some [1] ∧ 1 < 4
    ∧ FileFromPath encodeHash fsA "a" 4
        = Except.ok
            { path := "a", size := 1,
              bytesHash := encodeHash ([1] ++ List.replicate 3 0) 0,
              fullHash := 0 } :=
  ⟨by decide, by decide,
   C4_short_file_padded_digest encodeHash fsA "a" 4 [1] (by decide) (by decide)⟩

/-- C6: identity extraction fails exactly when the file cannot be opened (path
absent), always with `AccessError`; a short read (file shorter than `N`,
end-of-file reached) is not a failure.  In this filesystem model `Stat` on a
successfully opened file cannot fail (the source discards that error anyway),
so open failure is the only failure case. -/
theorem C6_extraction_error_iff_open_fails (hash : HashFn) (fs : FS)
    (p : String) (N : Nat) :
    (fs p = none → FileFromPath hash fs p N = Except.error (GoError.accessError p))
    ∧ (∀ e, FileFromPath hash fs p N = Except.error e →
        fs p = none ∧ e = GoError.accessError p)
    ∧ (∀ c, fs p = some c → c.length < N →
        FileFromPath hash fs p N = Except.ok (mkRecord hash c p N)) := by
  refine ⟨fun h => by simp [FileFromPath, h], ?_, ?_⟩
  · intro e he
    cases hfs : fs p with
    | none =>
        simp only [FileFromPath, hfs, Except.error.injEq] at he
        exact ⟨rfl, he.symm⟩
    | some c => simp [FileFromPath, hfs] at he
  · intro c hc hlen
    simp [FileFromPath, hc, mkRecord]

/-- C6 witness: the error case at an absent path and the short-read success
case at a 1-byte file with N = 4. -/
theorem C6_witness :
    FileFromPath encodeHash fsA "missing" 4
      = Except.error (GoError.accessError "missing")
    ∧ FileFromPath encodeHash fsA "a" 4
        = Except.ok (mkRecord encodeHash [1] "a" 4) :=
  ⟨(C6_extraction_error_iff_open_fails encodeHash fsA "missing" 4).1 (by decide),
   (C6_extraction_error_iff_open_fails encodeHash fsA "a" 4).2.2 [1] (by decide)
     (by decide)⟩

/-- C7: `TotalSizeDups` computes the spec's `TotalDuplicatedBytes()`: the sum
over all groups of (group length − 1) times the size of the group's
representative (first) record. -/
theorem C7_totalSizeDups_eq_spec (p : PathStore) :
    TotalSizeDups p = specTotalDuplicatedBytes p := by
  unfold TotalSizeDups specTotalDuplicatedBytes
  simpa using
    foldl_add_map_sum (fun kv => (kv.2.length - 1) * (kv.2.headD default).size)
      p.paths 0

/-- C9: on any store whose map is well formed (unique keys, true of every Go
map), `Prune` returns a store containing exactly the groups of length at least
2 (`1 < length`), each unchanged; other keys look up to nothing.  `Prune` is a
pure function of the receiver, so it is deterministic and leaves the receiver
unchanged. -/
theorem C9_prune_exactly_big_groups (p : PathStore) (h : WFPaths p.paths)
    (k : Nat) :
    lookupGroup (Prune p).paths k
      = if 1 < (lookupGroup p.paths k).length then lookupGroup p.paths k
        else [] := by
  unfold Prune
  exact lookupGroup_filter_big h k

/-- Fixture store for the C9 witness: one group of two records (key 5) and one
singleton group (key 9). -/
def storeW9 : PathStore :=
  { paths := [(5, [⟨"a", 3, 5, 0⟩, ⟨"b", 3, 5, 0⟩]), (9, [⟨"c", 7, 9, 0⟩])],
    bytesPerFile := 4, pathsAdded := [] }

/-- C9 witness: the two-record group survives pruning unchanged and the
singleton group is gone. -/
theorem C9_witness :
    lookupGroup (Prune storeW9).paths 5 = lookupGroup storeW9.paths 5
    ∧ lookupGroup (Prune storeW9).paths 9 = [] := by
  constructor
  · rw [C9_prune_exactly_big_groups storeW9 (by decide) 5]; decide
  · rw [C9_prune_exactly_big_groups storeW9 (by decide) 9]; decide

/-- C10: the megabytes figure in `Summarize` is `TotalSizeDups` divided by
1048576 with truncating natural division, so any duplicated total below one
mebibyte is printed as `0 megabytes`. -/
theorem C10_megabytes_truncated (p : PathStore) :
    Summarize p = toString (FileCount p) ++ " files (in "
        ++ toString (FileSetCount p) ++ " sets), occupying "
        ++ toString (TotalSizeDups p / 1048576) ++ " megabytes"
    ∧ (TotalSizeDups p < 1048576 →
        Summarize p = toString (FileCount p) ++ " files (in "
          ++ toString (FileSetCount p) ++ " sets), occupying "
          ++ "0" ++ " megabytes") := by
  constructor
  · rfl
  · intro h
    unfold Summarize
    rw [show (1024 * 1024 : Nat) = 1048576 from rfl, Nat.div_eq_of_lt h]
    rw [show toString (0 : Nat) = "0" by decide]

/-- Fixture store for the C10 witness: two 5-byte duplicates, 5 duplicated
bytes in total. -/
def storeW10 : PathStore :=
  { paths := [(5, [⟨"a", 5, 5, 0⟩, ⟨"b", 5, 5, 0⟩])], bytesPerFile := 4,
    pathsAdded := [] }

/-- The store `NewPathStore encodeHash fsC3 ["a", "b"] 4` actually produces:
both files share the key `encodeList [0,0,0,0] = 26` because their screening
buffers coincide after zero padding, although their `(size, existing-bytes)`
pairs differ. -/
def storeC3out : PathStore :=
  { paths := [(26, [⟨"a", 1, 26, 0⟩, ⟨"b", 2, 26, 0⟩])], bytesPerFile := 4,
    pathsAdded := [] }

/-- C3 counterexample: files `a = [0]` and `b = [0,0]` each have a unique
`(size, first-N-bytes)` pair and the digest run is collision-free (their hashed
buffers are identical, so no two distinct buffers collide), yet `a` appears in
a pruned group: the store keys by the digest of the zero-padded buffer only,
never by size, and `[0]` and `[0,0]` pad to the same 4-byte buffer. -/
theorem C3_counterexample :
    NewPathStore encodeHash fsC3 ["a", "b"] 4 = Except.ok storeC3out
    ∧ List.Nodup ["a", "b"]
    ∧ NoCollisionOn encodeHash fsC3 4 ["a", "b"]
    ∧ (∀ q ∈ (["a", "b"] : List String), q ≠ "a" →
        sigPair fsC3 4 q ≠ sigPair fsC3 4 "a")
    ∧ "a" ∈ (AllPaths (Prune storeC3out)).map File.path := by decide

/-- C3 amended: a file whose zero-padded `N`-byte screening buffer is unique
among the inputs appears in no group of the pruned screening store, assuming
no digest collision among the inputs' buffers. -/
theorem C3_unique_buffer_not_in_pruned (hash : HashFn) (fs : FS)
    (paths : List String) (N : Nat) (s : PathStore) (p : String)
    (hok : NewPathStore hash fs paths N = Except.ok s)
    (hnd : paths.Nodup) (hp : p ∈ paths)
    (hnc : NoCollisionOn hash fs N paths)
    (huniq : ∀ q ∈ paths, q ≠ p →
        readBuffer ((fs q).getD []) N ≠ readBuffer ((fs p).getD []) N) :
    p ∉ (AllPaths (Prune s)).map File.path := by
  intro hmem
  obtain ⟨f, hfmem, hfpath⟩ := List.mem_map.mp hmem
  obtain ⟨kv, hkv, hfv⟩ := mem_AllPaths.mp hfmem
  obtain ⟨k, v⟩ := kv
  obtain ⟨hkvS, hlen⟩ := mem_Prune_paths.mp hkv
  have hv : v = (extractedRecords hash fs N paths).filter
      (fun g => g.bytesHash == k) := NewPathStore_entry hok hkvS
  have hsub : v.Sublist (extractedRecords hash fs N paths) := by
    rw [hv]; exact List.filter_sublist _
  have hndv : (v.map File.path).Nodup :=
    ((extractedRecords_map_path_sublist hash fs N paths).nodup hnd).sublist
      (hsub.map File.path)
  obtain ⟨g, hg, hgne⟩ := exists_path_ne hndv hlen hfv
  have hf2 : f ∈ (extractedRecords hash fs N paths).filter
      (fun g => g.bytesHash == k) := hv ▸ hfv
  have hg2 : g ∈ (extractedRecords hash fs N paths).filter
      (fun g => g.bytesHash == k) := hv ▸ hg
  obtain ⟨hfE, hfK⟩ := List.mem_filter.mp hf2
  obtain ⟨hgE, hgK⟩ := List.mem_filter.mp hg2
  obtain ⟨pf, hpf, cf, hcf, rfl⟩ := mem_extractedRecords.mp hfE
  obtain ⟨pg, hpg, cg, hcg, rfl⟩ := mem_extractedRecords.mp hgE
  simp only [mkRecord] at hfpath hgne
  subst hfpath
  simp only [beq_iff_eq, mkRecord] at hfK hgK
  have hdig : hash (readBuffer ((fs pg).getD []) N) 0
      = hash (readBuffer ((fs pf).getD []) N) 0 := by
    rw [hcg, hcf]
    simp only [Option.getD_some]
    rw [hgK, hfK]
  have hbuf := hnc pg hpg pf hp hdig
  exact huniq pg hpg hgne hbuf

/-- The store `NewPathStore encodeHash fsDistinct ["a", "b"] 4` actually
produces: two singleton groups with distinct keys 27 and 28. -/
def storeC3W : PathStore :=
  { paths := [(27, [⟨"a", 1, 27, 0⟩]), (28, [⟨"b", 1, 28, 0⟩])],
    bytesPerFile := 4, pathsAdded := [] }

/-- C3 witness: with two files of distinct screening buffers, the uniquely
buffered file `a` is absent from the pruned store. -/
theorem C3_witness : "a" ∉ (AllPaths (Prune storeC3W)).map File.path :=
  C3_unique_buffer_not_in_pruned encodeHash fsDistinct ["a", "b"] 4 storeC3W "a"
    (by decide) (by decide) (by decide) (by decide) (by decide)

/-- C8: every record handed to the confirmation hashing stage (the records of
the pruned screening store, exactly what `main` feeds to the worker queue)
lies in a group of length at least 2 of that pruned store; a record whose
screening group is a singleton is not among them and still carries the zero
value in `fullHash`, i.e. its content digest was never computed. -/
theorem C8_confirmation_only_big_groups (hash : HashFn) (fs : FS)
    (paths : List String) (N : Nat) (s : PathStore)
    (hok : NewPathStore hash fs paths N = Except.ok s) :
    (∀ f ∈ AllPaths (Prune s),
        1 < (lookupGroup (Prune s).paths f.bytesHash).length)
    ∧ (∀ f ∈ AllPaths s, (lookupGroup s.paths f.bytesHash).length = 1 →
        f ∉ AllPaths (Prune s) ∧ f.fullHash = 0) := by
  have hWs := NewPathStore_ok_wf hok
  have hWp : WFPaths (Prune s).paths := wf_Prune hWs
  constructor
  · intro f hf
    obtain ⟨kv, hkv, hfv⟩ := mem_AllPaths.mp hf
    obtain ⟨k, v⟩ := kv
    obtain ⟨hkvS, hlen⟩ := mem_Prune_paths.mp hkv
    have hv := NewPathStore_entry hok hkvS
    have hfk : f.bytesHash = k := by
      have := (List.mem_filter.mp (hv ▸ hfv)).2
      simpa using this
    have hlook : lookupGroup (Prune s).paths k = v := lookupGroup_eq_of_mem hWp hkv
    rw [hfk, hlook]
    exact hlen
  · intro f hf hsing
    obtain ⟨kv, hkv, hfv⟩ := mem_AllPaths.mp hf
    obtain ⟨k, v⟩ := kv
    have hv := NewPathStore_entry hok hkv
    have hfk : f.bytesHash = k := by
      have := (List.mem_filter.mp (hv ▸ hfv)).2
      simpa using this
    have hfull : f.fullHash = 0 := by
      have hfE := (List.mem_filter.mp (hv ▸ hfv)).1
      obtain ⟨q, hq, c, hc, rfl⟩ := mem_extractedRecords.mp hfE
      simp [mkRecord]
    refine ⟨?_, hfull⟩
    intro hfP
    obtain ⟨kv2, hkv2, hfv2⟩ := mem_AllPaths.mp hfP
    obtain ⟨k2, v2⟩ := kv2
    obtain ⟨hkv2S, hlen2⟩ := mem_Prune_paths.mp hkv2
    have hv2 := NewPathStore_entry hok hkv2S
    have hfk2 : f.bytesHash = k2 := by
      have := (List.mem_filter.mp (hv2 ▸ hfv2)).2
      simpa using this
    have hlook : lookupGroup s.paths k = v := lookupGroup_eq_of_mem hWs hkv
    have hlook2 : lookupGroup s.paths k2 = v2 := lookupGroup_eq_of_mem hWs hkv2S
    rw [hfk, hlook] at hsing
    have hk2k : k2 = k := by rw [← hfk2, hfk]
    rw [hk2k, hlook] at hlook2
    rw [← hlook2] at hlen2
    have hgt : 1 < v.length := by simpa using hlen2
    omega

/-- The store `NewPathStore encodeHash fsABC ["a", "b", "c"] 4` actually
produces: one group of two (key 27) and a singleton (key 28). -/
def storeC8 : PathStore :=
  { paths := [(27, [⟨"a", 1, 27, 0⟩, ⟨"b", 1, 27, 0⟩]),
      (28, [⟨"c", 1, 28, 0⟩])],
    bytesPerFile := 4, pathsAdded := [] }

/-- C8 witness: the singleton-group record of `c` does not reach the
confirmation stage and its content digest stays at its zero value. -/
theorem C8_witness :
    (⟨"c", 1, 28, 0⟩ : File) ∉ AllPaths (Prune storeC8)
    ∧ (⟨"c", 1, 28, 0⟩ : File).fullHash = 0 :=
  (C8_confirmation_only_big_groups encodeHash fsABC ["a", "b", "c"] 4 storeC8
    (by decide)).2 ⟨"c", 1, 28, 0⟩ (by decide) (by decide)

/-- Flags for the C5 counterexample: directory mode, `-bytes=4`,
`-summarize` set. -/
def flagsC5 : Flags := Flags.mk false "d" 4 4 true

/-- C5 counterexample: with the summarize flag set, the run still prints both
intermediate summaries (elements 0 and 1 of the trace) and the log line; the
flag only enables the final summary (element 3) instead of suppressing the
intermediate output. -/
theorem C5_counterexample :
    runMain encodeHash fsAB flagsC5 ["a", "b"] []
      = ["2 files (in 1 sets), occupying 0 megabytes",
         "2 files (in 1 sets), occupying 0 megabytes",
         "got the hashed map",
         "2 files (in 1 sets), occupying 0 megabytes"] := by decide

/-- C5 amended: in directory mode the trace is always the summary after
initial grouping, then the summary after pruning, then the log line; the final
confirmation summary is appended exactly when the summarize flag is set, and
the flag suppresses nothing. -/
theorem C5_trace_checkpoints (hash : HashFn) (fs : FS) (walkPaths : List String)
    (N W : Nat) (b : Bool) (pth : String) (s : PathStore) (hs : List File)
    (h : NewPathStore hash fs walkPaths N = Except.ok s)
    (hh : hashAllFiles hash fs (AllPaths (Prune s)) = Except.ok hs) :
    runMain hash fs (Flags.mk false pth W N b) walkPaths []
      = [Summarize s, Summarize (Prune s), "got the hashed map"]
        ++ (if b then [Summarize (Prune (regroupStore hs))] else []) := by
  unfold runMain
  simp only [Bool.false_and, Bool.false_eq_true, if_false, h, finalTrace, hh]

/-- The store `NewPathStore encodeHash fsAB ["a", "b"] 4` actually produces:
one group of the two identical files (key 62). -/
def storeAB5 : PathStore :=
  { paths := [(62, [⟨"a", 1, 62, 0⟩, ⟨"b", 1, 62, 0⟩])], bytesPerFile := 4,
    pathsAdded := [] }

/-- The records of `Prune storeAB5` after confirmation hashing
(`encodeList [7] = 57`). -/
def hsAB5 : List File := [⟨"a", 1, 62, 57⟩, ⟨"b", 1, 62, 57⟩]

/-- C5 witness: with the summarize flag unset the trace is exactly the two
summaries and the log line. -/
theorem C5_witness :
    runMain encodeHash fsAB (Flags.mk false "d" 4 4 false) ["a", "b"] []
      = [Summarize storeAB5, Summarize (Prune storeAB5), "got the hashed map"] := by
  have h := C5_trace_checkpoints encodeHash fsAB ["a", "b"] 4 4 false "d"
    storeAB5 hsAB5 (by decide) (by decide)
  simpa using h

/-- C10 witness: a sub-mebibyte duplicated total prints as 0 megabytes. -/
theorem C10_witness :
    TotalSizeDups storeW10 < 1048576
    ∧ Summarize storeW10 = toString (FileCount storeW10) ++ " files (in "
        ++ toString (FileSetCount storeW10) ++ " sets), occupying "
        ++ "0" ++ " megabytes" :=
  ⟨by decide, (C10_megabytes_truncated storeW10).2 (by decide)⟩

end Godupes
